import Mathlib

/-!
# Student Attendance Analyzer: shallow embedding and verification

A shallow embedding of the computational core of `src/main.py`
(`AttendanceAnalyzerApp`): per-student attendance aggregation
(`analyze_attendance`, line 58-95), CSV loading (`load_and_analyze`,
line 44-56) and the inclusive date-range filter
(`analyze_with_date_filter`, line 97-118).

Modelling conventions:
* A pandas `DataFrame` is a list of column names plus an ordered list of
  rows; a row (`Record`) carries the three required fields.  Extra CSV
  columns play no role in any verified operation and are represented only
  by the `columns` list.
* The `Date` column holds either the raw text read from the CSV or a
  parsed calendar date (`DateVal`), because
  `self.df['Date'] = pd.to_datetime(self.df['Date'])` (line 108) replaces
  raw text with parsed timestamps in place.
* Percentages are rationals (`ℚ`): the Python floats are modelled by exact
  arithmetic, as the spec's contracts are arithmetic identities.
* GUI dialogs, the chart and the PDF export are outside the computational
  core; each operation returns an outcome value in place of the dialog it
  would show.
-/

/-- A calendar date, as produced by `datetime.strptime(s, "%Y-%m-%d")` /
`pd.to_datetime`. -/
structure Date where
  year : Nat
  month : Nat
  day : Nat
deriving DecidableEq, Repr

/-- Chronological comparison of dates (lexicographic on year, month, day),
as `datetime`/`Timestamp` ordering. -/
def Date.leB (a b : Date) : Bool :=
  decide (a.year < b.year ∨ (a.year = b.year ∧
    (a.month < b.month ∨ (a.month = b.month ∧ a.day ≤ b.day))))

/-- A value of the `Date` column: either the raw CSV text, or the parsed
timestamp it becomes after `pd.to_datetime` (line 108 of `main.py`). -/
inductive DateVal where
  | raw (s : String)
  | dt (d : Date)
deriving DecidableEq, Repr

/-- One attendance row: the three required CSV fields
`Student Name`, `Date`, `Status`. -/
structure Record where
  studentName : String
  date : DateVal
  status : String
deriving DecidableEq, Repr

/-- `df['Date'] >= start_date` on one cell: a parsed date compares
chronologically; raw text never reaches this comparison in the program
(the column is converted first), so it selects nothing. -/
def DateVal.geB (v : DateVal) (s : Date) : Bool :=
  match v with
  | .dt d => Date.leB s d
  | .raw _ => false

/-- `df['Date'] <= end_date` on one cell. -/
def DateVal.leB (v : DateVal) (e : Date) : Bool :=
  match v with
  | .dt d => Date.leB d e
  | .raw _ => false

/-- Split a character list at `'-'` separators, as the `%Y-%m-%d` format
of `datetime.strptime` fields is delimited. -/
def splitOnDash : List Char → List (List Char)
  | [] => [[]]
  | c :: cs =>
    if c = '-' then [] :: splitOnDash cs
    else
      match splitOnDash cs with
      | [] => [[c]]
      | g :: gs => (c :: g) :: gs

/-- Numeric value of a string of decimal digits. -/
def digitsVal (cs : List Char) : Nat :=
  cs.foldl (fun n c => n * 10 + (c.toNat - 48)) 0

/-- Gregorian leap-year rule, as `datetime` validates day-of-month. -/
def isLeapYear (y : Nat) : Bool :=
  y % 4 == 0 && (y % 100 != 0 || y % 400 == 0)

/-- Number of days in a month, as `datetime` validates day-of-month. -/
def daysInMonth (y m : Nat) : Nat :=
  if m = 2 then (if isLeapYear y then 29 else 28)
  else if m = 4 ∨ m = 6 ∨ m = 9 ∨ m = 11 then 30
  else 31

/-- `datetime.strptime(s, "%Y-%m-%d")` (lines 105-106 of `main.py`):
the year is exactly four digits, month and day one or two digits, the
month in 1..12, the day valid for the month, the year positive; any
other input raises (modelled by `none`). -/
def parseDate (s : String) : Option Date :=
  match splitOnDash s.data with
  | [ys, ms, ds] =>
    if ys.length = 4 ∧ ys.all Char.isDigit
        ∧ 1 ≤ ms.length ∧ ms.length ≤ 2 ∧ ms.all Char.isDigit
        ∧ 1 ≤ ds.length ∧ ds.length ≤ 2 ∧ ds.all Char.isDigit then
      let y := digitsVal ys
      let m := digitsVal ms
      let d := digitsVal ds
      if 1 ≤ y ∧ 1 ≤ m ∧ m ≤ 12 ∧ 1 ≤ d ∧ d ≤ daysInMonth y m then
        some ⟨y, m, d⟩
      else none
    else none
  | _ => none

/-- The boolean series `df['Date'] >= start_date` (line 109). -/
def geMask (dates : List DateVal) (s : Date) : List Bool :=
  dates.map (fun v => DateVal.geB v s)

/-- The boolean series `df['Date'] <= end_date` (line 109). -/
def leMask (dates : List DateVal) (e : Date) : List Bool :=
  dates.map (fun v => DateVal.leB v e)

/-- The elementwise conjunction `mask1 & mask2` of two boolean series. -/
def andMask (a b : List Bool) : List Bool :=
  List.zipWith (fun x y => x && y) a b

/-- Boolean-mask row selection `df[mask]`: keep the rows whose mask entry
is true, in order. -/
def selectRows (rows : List Record) (mask : List Bool) : List Record :=
  (List.zip rows mask).filterMap (fun p => if p.2 then some p.1 else none)

/-- The date filter of line 109,
`df[(df['Date'] >= start_date) & (df['Date'] <= end_date)]`, built from
the two comparison masks exactly as the source builds it. -/
def filter_by_range (rows : List Record) (s e : Date) : List Record :=
  selectRows rows
    (andMask (geMask (rows.map Record.date) s) (leMask (rows.map Record.date) e))

/-- The membership predicate the mask computes on one row. -/
def inRangeB (v : DateVal) (s e : Date) : Bool :=
  DateVal.geB v s && DateVal.leB v e

/-- Lexicographic comparison of two character sequences, as Python
compares strings (by code point, a proper prefix sorting first). -/
def lexLe : List Char → List Char → Bool
  | [], _ => true
  | _ :: _, [] => false
  | a :: as, b :: bs => if a = b then lexLe as bs else decide (a < b)

/-- Python string order, used by `groupby`'s ascending key sort. -/
def strLeB (a b : String) : Bool := lexLe a.data b.data

/-- Insert a name into an ascending list of names. -/
def insertSorted (x : String) : List String → List String
  | [] => [x]
  | y :: ys => if strLeB x y then x :: y :: ys else y :: insertSorted x ys

/-- Sort names ascending (insertion sort). -/
def sortNames (l : List String) : List String := l.foldr insertSorted []

/-- The group keys of `df.groupby("Student Name")` (line 65): the distinct
student names, in ascending order (`groupby` sorts its keys). -/
def groupKeys (rows : List Record) : List String :=
  sortNames (rows.map Record.studentName).dedup

/-- The number of records of one student in the active rows: the size of
that student's `groupby` group. -/
def totalCount (rows : List Record) (name : String) : Nat :=
  rows.countP (fun r => r.studentName == name)

/-- The number of records of one student whose `Status` is exactly the
string `"Present"` (case-sensitive `x == "Present"`, line 65). -/
def presentCount (rows : List Record) (name : String) : Nat :=
  rows.countP (fun r => r.studentName == name && r.status == "Present")

/-- One student's attendance percentage,
`(x == "Present").mean() * 100` on their group (line 65). -/
def percentage (rows : List Record) (name : String) : ℚ :=
  ((presentCount rows name : ℚ) / (totalCount rows name : ℚ)) * 100

/-- The attendance summary of line 65,
`df.groupby("Student Name")["Status"].apply(lambda x: (x == "Present").mean() * 100)`:
a series mapping each distinct student name, ascending, to the student's
percentage. -/
def summarize (rows : List Record) : List (String × ℚ) :=
  (groupKeys rows).map (fun n => (n, percentage rows n))

/-- Fold of pandas `Series.idxmax`: keep the current best entry, replacing
it only when a later entry is strictly greater, so the first maximal
entry wins. -/
def idxmaxGo (best : String × ℚ) : List (String × ℚ) → String × ℚ
  | [] => best
  | x :: xs => idxmaxGo (if best.2 < x.2 then x else best) xs

/-- `attendance_summary.idxmax()` (line 83): the index of the first
maximal entry; on an empty series the call raises (modelled by `none`). -/
def idxmax (l : List (String × ℚ)) : Option String :=
  match l with
  | [] => none
  | x :: xs => some (idxmaxGo x xs).1

/-- Fold of pandas `Series.idxmin`: first minimal entry wins. -/
def idxminGo (best : String × ℚ) : List (String × ℚ) → String × ℚ
  | [] => best
  | x :: xs => idxminGo (if x.2 < best.2 then x else best) xs

/-- `attendance_summary.idxmin()` (line 84). -/
def idxmin (l : List (String × ℚ)) : Option String :=
  match l with
  | [] => none
  | x :: xs => some (idxminGo x xs).1

/-- `attendance_summary.mean()` (line 85): the arithmetic mean of the
series' values. -/
def seriesMean (l : List (String × ℚ)) : ℚ :=
  (l.map Prod.snd).sum / l.length

/-- An in-memory data frame: the CSV's column names and its rows. -/
structure DataFrame where
  columns : List String
  rows : List Record
deriving DecidableEq, Repr

/-- The application state: `self.df` holds the loaded frame, `none` before
any upload (accessing it then raises `AttributeError`). -/
structure AppState where
  df : Option DataFrame
deriving DecidableEq, Repr

/-- The required columns checked at line 60. -/
def requiredColumns : List String := ["Student Name", "Date", "Status"]

/-- `required_columns.issubset(df.columns)` (line 61). -/
def hasRequiredColumns (cols : List String) : Bool :=
  requiredColumns.all (fun c => cols.contains c)

/-- Outcome of `analyze_attendance` (lines 58-95): its dialogs, or the
error dialog of its `except` arm.  `validationError` is the
`ValueError` of line 62; `emptyDatasetError` is the `ValueError` raised
by `idxmax` on the empty summary of an empty frame. -/
inductive AnalyzeResult where
  | validationError
  | emptyDatasetError
  | success (summary : List (String × ℚ)) (most least : String) (overall : ℚ)
deriving DecidableEq, Repr

/-- `analyze_attendance(df)` (lines 58-95): validate the columns, build
the summary, then report `idxmax`, `idxmin` and the mean.  Chart and
dialog rendering are presentation, not modelled. -/
def analyze_attendance (df : DataFrame) : AnalyzeResult :=
  if hasRequiredColumns df.columns then
    match idxmax (summarize df.rows), idxmin (summarize df.rows) with
    | some m, some l =>
      .success (summarize df.rows) m l (seriesMean (summarize df.rows))
    | _, _ => .emptyDatasetError
  else .validationError

/-- Outcome of `load_and_analyze` (lines 44-56): `readError` is the
`except` arm when `pd.read_csv` itself raises; otherwise the frame is
analyzed. -/
inductive LoadOutcome where
  | readError
  | loaded (r : AnalyzeResult)
deriving DecidableEq, Repr

/-- `load_and_analyze` (lines 44-56) on a chosen file whose parse result
is `readResult` (`none` models `pd.read_csv` raising).  On a successful
read, `self.df` is assigned (line 50) before any validation; on a read
failure the old `self.df` is left untouched. -/
def load_and_analyze (st : AppState) (readResult : Option DataFrame) :
    AppState × LoadOutcome :=
  match readResult with
  | none => (st, .readError)
  | some df => (⟨some df⟩, .loaded (analyze_attendance df))

/-- `pd.to_datetime` on one `Date` cell (line 108): raw text is parsed
(failure raises, modelled by `none`); an already-parsed timestamp is left
as is. -/
def to_datetime : DateVal → Option DateVal
  | .raw s => (parseDate s).map DateVal.dt
  | .dt d => some (DateVal.dt d)

/-- `pd.to_datetime(self.df['Date'])` (line 108) over the whole column:
every cell must convert, else the call raises (modelled by `none`). -/
def normalizeDates : List Record → Option (List Record)
  | [] => some []
  | r :: rs =>
    match to_datetime r.date, normalizeDates rs with
    | some v, some rest => some ({ r with date := v } :: rest)
    | _, _ => none

/-- Outcome of `analyze_with_date_filter` (lines 97-118). -/
inductive FilterOutcome where
  | missingInput
  | dateParseError
  | noDataset
  | dateConvertError
  | noRecords
  | analyzed (r : AnalyzeResult)
deriving DecidableEq, Repr

/-- `analyze_with_date_filter` (lines 97-118): read both entry fields,
parse them with `strptime`, convert the stored frame's `Date` column in
place (the line-108 assignment to `self.df['Date']`), select the rows in
the inclusive range, short-circuit with an informational message when
none match, and otherwise aggregate the filtered frame. -/
def analyze_with_date_filter (st : AppState) (startText endText : String) :
    AppState × FilterOutcome :=
  if startText = "" ∨ endText = "" then (st, .missingInput)
  else
    match parseDate startText, parseDate endText with
    | some s, some e =>
      match st.df with
      | none => (st, .noDataset)
      | some df =>
        match normalizeDates df.rows with
        | none => (st, .dateConvertError)
        | some rows2 =>
          let st2 : AppState := ⟨some ⟨df.columns, rows2⟩⟩
          let filtered := filter_by_range rows2 s e
          if filtered.isEmpty then (st2, .noRecords)
          else (st2, .analyzed (analyze_attendance ⟨df.columns, filtered⟩))
    | _, _ => (st, .dateParseError)

/-- `attendance_summary.mean()` over the whole pipeline (line 85): the
overall class attendance of a record set. -/
def overall_attendance (rows : List Record) : ℚ :=
  seriesMean (summarize rows)

/-- The worked example of spec section 8: Alice present then absent,
Bob present twice. -/
def exampleRows : List Record :=
  [⟨"Alice", .dt ⟨2024, 1, 1⟩, "Present"⟩,
   ⟨"Alice", .dt ⟨2024, 1, 2⟩, "Absent"⟩,
   ⟨"Bob", .dt ⟨2024, 1, 1⟩, "Present"⟩,
   ⟨"Bob", .dt ⟨2024, 1, 2⟩, "Present"⟩]

/-- A loaded frame whose `Date` column still holds the raw CSV text. -/
def storedDF : DataFrame :=
  ⟨["Student Name", "Date", "Status"],
   [⟨"Alice", .raw "2024-01-01", "Present"⟩]⟩

/-- A frame read from a CSV that has no `Status` column.  Its rows are
never consulted on the validation-failure path, so they are empty here. -/
def badDF : DataFrame := ⟨["Student Name", "Date"], []⟩

theorem Date.leB_trans {a b c : Date} (h1 : Date.leB a b = true)
    (h2 : Date.leB b c = true) : Date.leB a c = true := by
  simp only [Date.leB, decide_eq_true_eq] at *
  omega

theorem Date.leB_antisymm {a b : Date} (h1 : Date.leB a b = true)
    (h2 : Date.leB b a = true) : a = b := by
  simp only [Date.leB, decide_eq_true_eq] at *
  obtain ⟨y, m, d⟩ := a
  obtain ⟨y', m', d'⟩ := b
  simp_all only [Date.mk.injEq]
  omega

theorem Date.leB_total (a b : Date) :
    Date.leB a b = true ∨ Date.leB b a = true := by
  simp only [Date.leB, decide_eq_true_eq]
  omega

theorem andMask_masks (rows : List Record) (s e : Date) :
    andMask (geMask (rows.map Record.date) s) (leMask (rows.map Record.date) e)
      = rows.map (fun r => inRangeB r.date s e) := by
  induction rows with
  | nil => rfl
  | cons r rest ih =>
    simp only [geMask, leMask, andMask, List.map_cons, List.zipWith_cons_cons]
    simp only [geMask, leMask, andMask] at ih
    rw [ih]
    rfl

theorem selectRows_map (p : Record → Bool) (rows : List Record) :
    selectRows rows (rows.map p) = rows.filter p := by
  induction rows with
  | nil => rfl
  | cons r rest ih =>
    simp only [selectRows, List.map_cons, List.zip_cons_cons,
      List.filterMap_cons, List.filter_cons]
    simp only [selectRows] at ih
    by_cases h : p r = true
    · simp [h, ih]
    · simp only [Bool.not_eq_true] at h
      simp [h, ih]

/-- Selecting by the conjunction of the two comparison masks is filtering
by the range predicate. -/
theorem filter_by_range_eq_filter (rows : List Record) (s e : Date) :
    filter_by_range rows s e = rows.filter (fun r => inRangeB r.date s e) := by
  rw [filter_by_range, andMask_masks, selectRows_map]


theorem lexLe_total (a b : List Char) : lexLe a b = true ∨ lexLe b a = true := by
  induction a generalizing b with
  | nil => left; rfl
  | cons x as ih =>
    cases b with
    | nil => right; rfl
    | cons y bs =>
      by_cases hxy : x = y
      · subst hxy
        simp only [lexLe, if_pos rfl]
        exact ih bs
      · rcases lt_or_gt_of_ne hxy with h | h
        · left
          simp [lexLe, hxy, h]
        · right
          simp [lexLe, Ne.symm hxy, h]

theorem lexLe_trans {a b c : List Char} (h1 : lexLe a b = true)
    (h2 : lexLe b c = true) : lexLe a c = true := by
  induction a generalizing b c with
  | nil => rfl
  | cons x as ih =>
    cases b with
    | nil => simp [lexLe] at h1
    | cons y bs =>
      cases c with
      | nil => simp [lexLe] at h2
      | cons z cs =>
        simp only [lexLe] at h1 h2 ⊢
        by_cases hxy : x = y <;> by_cases hyz : y = z
        · subst hxy; subst hyz
          simp only [if_pos rfl] at h1 h2 ⊢
          exact ih h1 h2
        · subst hxy
          simp only [if_pos rfl] at h1
          simp only [if_neg hyz, decide_eq_true_eq] at h2
          simp [hyz, h2]
        · subst hyz
          simp only [if_neg hxy, decide_eq_true_eq] at h1
          simp [hxy, h1]
        · simp only [if_neg hxy, decide_eq_true_eq] at h1
          simp only [if_neg hyz, decide_eq_true_eq] at h2
          have hxz : x < z := lt_trans h1 h2
          simp [ne_of_lt hxz, hxz]

theorem lexLe_antisymm {a b : List Char} (h1 : lexLe a b = true)
    (h2 : lexLe b a = true) : a = b := by
  induction a generalizing b with
  | nil =>
    cases b with
    | nil => rfl
    | cons y bs => simp [lexLe] at h2
  | cons x as ih =>
    cases b with
    | nil => simp [lexLe] at h1
    | cons y bs =>
      by_cases hxy : x = y
      · subst hxy
        simp only [lexLe, if_pos rfl] at h1 h2
        rw [ih h1 h2]
      · simp only [lexLe, if_neg hxy, decide_eq_true_eq] at h1
        simp only [lexLe, if_neg (Ne.symm hxy), decide_eq_true_eq] at h2
        exact absurd (lt_trans h1 h2) (lt_irrefl x)

theorem strLeB_total (a b : String) : strLeB a b = true ∨ strLeB b a = true :=
  lexLe_total a.data b.data

theorem strLeB_trans {a b c : String} (h1 : strLeB a b = true)
    (h2 : strLeB b c = true) : strLeB a c = true :=
  lexLe_trans h1 h2

theorem strLeB_antisymm {a b : String} (h1 : strLeB a b = true)
    (h2 : strLeB b a = true) : a = b :=
  String.ext (lexLe_antisymm h1 h2)

theorem insertSorted_perm (x : String) (l : List String) :
    (insertSorted x l).Perm (x :: l) := by
  induction l with
  | nil => exact List.Perm.refl _
  | cons y ys ih =>
    by_cases h : strLeB x y = true
    · simp only [insertSorted, if_pos h]
      exact List.Perm.refl _
    · simp only [insertSorted, if_neg h]
      exact List.Perm.trans (List.Perm.cons y ih) (List.Perm.swap x y ys)

theorem sortNames_perm (l : List String) : (sortNames l).Perm l := by
  induction l with
  | nil => exact List.Perm.refl _
  | cons x xs ih =>
    have : sortNames (x :: xs) = insertSorted x (sortNames xs) := rfl
    rw [this]
    exact List.Perm.trans (insertSorted_perm x (sortNames xs)) (List.Perm.cons x ih)

theorem insertSorted_pairwise (x : String) {l : List String}
    (h : l.Pairwise (fun a b => strLeB a b = true)) :
    (insertSorted x l).Pairwise (fun a b => strLeB a b = true) := by
  induction l with
  | nil => simp [insertSorted]
  | cons y ys ih =>
    rcases List.pairwise_cons.mp h with ⟨hy, hys⟩
    by_cases hxy : strLeB x y = true
    · simp only [insertSorted, if_pos hxy]
      refine List.pairwise_cons.mpr ⟨?_, h⟩
      intro a ha
      rcases List.mem_cons.mp ha with rfl | ha
      · exact hxy
      · exact strLeB_trans hxy (hy a ha)
    · simp only [insertSorted, if_neg hxy]
      refine List.pairwise_cons.mpr ⟨?_, ih hys⟩
      intro a ha
      have ha2 : a ∈ x :: ys := (insertSorted_perm x ys).mem_iff.mp ha
      rcases List.mem_cons.mp ha2 with rfl | ha2
      · rcases strLeB_total a y with h' | h'
        · exact absurd h' hxy
        · exact h'
      · exact hy a ha2

theorem sortNames_pairwise (l : List String) :
    (sortNames l).Pairwise (fun a b => strLeB a b = true) := by
  induction l with
  | nil => simp [sortNames]
  | cons x xs ih => exact insertSorted_pairwise x ih

theorem mem_groupKeys {rows : List Record} {n : String} :
    n ∈ groupKeys rows ↔ n ∈ rows.map Record.studentName := by
  rw [groupKeys, (sortNames_perm _).mem_iff, List.mem_dedup]

theorem groupKeys_nodup (rows : List Record) : (groupKeys rows).Nodup :=
  ((sortNames_perm _).nodup_iff).mpr (List.nodup_dedup _)

theorem groupKeys_pairwise (rows : List Record) :
    (groupKeys rows).Pairwise (fun a b => strLeB a b = true) :=
  sortNames_pairwise _

theorem groupKeys_eq_of_perm {rows rows2 : List Record}
    (h : rows.Perm rows2) : groupKeys rows = groupKeys rows2 := by
  have hperm : (groupKeys rows).Perm (groupKeys rows2) := by
    refine List.Perm.trans (sortNames_perm _) (List.Perm.trans ?_
      (sortNames_perm _).symm)
    exact ((h.map Record.studentName).dedup)
  haveI : IsAntisymm String (fun a b => strLeB a b = true) :=
    ⟨fun _ _ h1 h2 => strLeB_antisymm h1 h2⟩
  exact List.eq_of_perm_of_sorted hperm (groupKeys_pairwise rows)
    (groupKeys_pairwise rows2)

theorem totalCount_pos {rows : List Record} {n : String}
    (h : n ∈ groupKeys rows) : 0 < totalCount rows n := by
  rw [mem_groupKeys, List.mem_map] at h
  obtain ⟨r, hr, hrn⟩ := h
  rw [totalCount, List.countP_pos_iff]
  exact ⟨r, hr, by simp [hrn]⟩

theorem presentCount_le_totalCount (rows : List Record) (n : String) :
    presentCount rows n ≤ totalCount rows n := by
  refine List.countP_mono_left ?_
  intro r _ h
  exact (Bool.and_eq_true_iff.mp h).1

theorem percentage_nonneg (rows : List Record) (n : String) :
    0 ≤ percentage rows n := by
  rw [percentage]
  positivity

theorem percentage_le_hundred {rows : List Record} {n : String}
    (h : n ∈ groupKeys rows) : percentage rows n ≤ 100 := by
  rw [percentage]
  have htot : (0 : ℚ) < (totalCount rows n : ℚ) := by
    exact_mod_cast totalCount_pos h
  have hle : ((presentCount rows n : ℚ) / (totalCount rows n : ℚ)) ≤ 1 := by
    rw [div_le_one htot]
    exact_mod_cast presentCount_le_totalCount rows n
  calc ((presentCount rows n : ℚ) / (totalCount rows n : ℚ)) * 100
      ≤ 1 * 100 := by
        exact mul_le_mul_of_nonneg_right hle (by norm_num)
    _ = 100 := one_mul 100

theorem percentage_eq_of_perm {rows rows2 : List Record}
    (h : rows.Perm rows2) (n : String) :
    percentage rows n = percentage rows2 n := by
  rw [percentage, percentage, totalCount, totalCount, presentCount,
    presentCount, h.countP_eq, h.countP_eq]

theorem summarize_eq_of_perm {rows rows2 : List Record}
    (h : rows.Perm rows2) : summarize rows = summarize rows2 := by
  rw [summarize, summarize, groupKeys_eq_of_perm h]
  exact List.map_congr_left (fun n _ => by rw [percentage_eq_of_perm h])

theorem summarize_ne_nil {rows : List Record} (h : rows ≠ []) :
    summarize rows ≠ [] := by
  obtain ⟨r, rest, rfl⟩ := List.exists_cons_of_ne_nil h
  have hmem : r.studentName ∈ groupKeys (r :: rest) := by
    rw [mem_groupKeys, List.mem_map]
    exact ⟨r, List.mem_cons_self r rest, rfl⟩
  intro hnil
  rw [summarize, List.map_eq_nil_iff] at hnil
  rw [hnil] at hmem
  exact List.not_mem_nil _ hmem

theorem mem_summarize_snd {rows : List Record} {x : String × ℚ}
    (h : x ∈ summarize rows) :
    x.1 ∈ groupKeys rows ∧ x.2 = percentage rows x.1 := by
  rw [summarize, List.mem_map] at h
  obtain ⟨n, hn, hx⟩ := h
  cases hx
  exact ⟨hn, rfl⟩

theorem idxmaxGo_mem (b : String × ℚ) (l : List (String × ℚ)) :
    idxmaxGo b l ∈ b :: l := by
  induction l generalizing b with
  | nil => exact List.mem_cons_self _ _
  | cons x xs ih =>
    rw [idxmaxGo]
    by_cases h : b.2 < x.2
    · rw [if_pos h]
      rcases List.mem_cons.mp (ih x) with h' | h'
      · rw [h']
        exact List.mem_cons_of_mem _ (List.mem_cons_self _ _)
      · exact List.mem_cons_of_mem _ (List.mem_cons_of_mem _ h')
    · rw [if_neg h]
      rcases List.mem_cons.mp (ih b) with h' | h'
      · rw [h']
        exact List.mem_cons_self _ _
      · exact List.mem_cons_of_mem _ (List.mem_cons_of_mem _ h')

theorem idxmaxGo_ub (b : String × ℚ) (l : List (String × ℚ)) :
    ∀ y ∈ b :: l, y.2 ≤ (idxmaxGo b l).2 := by
  induction l generalizing b with
  | nil =>
    intro y hy
    rcases List.mem_cons.mp hy with rfl | hy
    · exact le_refl _
    · exact absurd hy (List.not_mem_nil _)
  | cons x xs ih =>
    intro y hy
    rw [idxmaxGo]
    by_cases h : b.2 < x.2
    · rw [if_pos h]
      rcases List.mem_cons.mp hy with rfl | hy2
      · exact le_trans (le_of_lt h) (ih x x (List.mem_cons_self _ _))
      · exact ih x y hy2
    · rw [if_neg h]
      rcases List.mem_cons.mp hy with rfl | hy2
      · exact ih _ y (List.mem_cons_self _ _)
      · rcases List.mem_cons.mp hy2 with rfl | hy3
        · exact le_trans (le_of_not_lt h) (ih b b (List.mem_cons_self _ _))
        · exact ih b y (List.mem_cons_of_mem _ hy3)

theorem idxmaxGo_keeps (b : String × ℚ) (l : List (String × ℚ))
    (h : ∀ x ∈ l, x.2 ≤ b.2) : idxmaxGo b l = b := by
  induction l generalizing b with
  | nil => rfl
  | cons x xs ih =>
    rw [idxmaxGo, if_neg (not_lt.mpr (h x (List.mem_cons_self _ _)))]
    exact ih b (fun y hy => h y (List.mem_cons_of_mem _ hy))

theorem idxmaxGo_split (b : String × ℚ) (l : List (String × ℚ)) :
    ∃ pre post, b :: l = pre ++ idxmaxGo b l :: post ∧
      ∀ y ∈ pre, y.2 < (idxmaxGo b l).2 := by
  induction l generalizing b with
  | nil => exact ⟨[], [], rfl, by simp⟩
  | cons x xs ih =>
    rw [idxmaxGo]
    by_cases h : b.2 < x.2
    · rw [if_pos h]
      obtain ⟨pre, post, hsplit, hlt⟩ := ih x
      refine ⟨b :: pre, post, by rw [List.cons_append, ← hsplit], ?_⟩
      intro y hy
      rcases List.mem_cons.mp hy with rfl | hy2
      · exact lt_of_lt_of_le h (idxmaxGo_ub x xs x (List.mem_cons_self _ _))
      · exact hlt y hy2
    · rw [if_neg h]
      obtain ⟨pre, post, hsplit, hlt⟩ := ih b
      cases pre with
      | nil =>
        simp only [List.nil_append] at hsplit
        injection hsplit with h1 h2
        refine ⟨[], x :: xs, ?_, by simp⟩
        rw [← h1]
        rfl
      | cons p ps =>
        simp only [List.cons_append, List.cons.injEq] at hsplit
        obtain ⟨rfl, hxs⟩ := hsplit
        refine ⟨b :: x :: ps, post, ?_, ?_⟩
        · rw [List.cons_append, List.cons_append, ← hxs]
        · intro y hy
          have hb : b.2 < (idxmaxGo b xs).2 := hlt b (List.mem_cons_self _ _)
          rcases List.mem_cons.mp hy with rfl | hy2
          · exact hb
          · rcases List.mem_cons.mp hy2 with rfl | hy3
            · exact lt_of_le_of_lt (not_lt.mp h) hb
            · exact hlt y (List.mem_cons_of_mem _ hy3)

theorem idxminGo_mem (b : String × ℚ) (l : List (String × ℚ)) :
    idxminGo b l ∈ b :: l := by
  induction l generalizing b with
  | nil => exact List.mem_cons_self _ _
  | cons x xs ih =>
    rw [idxminGo]
    by_cases h : x.2 < b.2
    · rw [if_pos h]
      rcases List.mem_cons.mp (ih x) with h' | h'
      · rw [h']
        exact List.mem_cons_of_mem _ (List.mem_cons_self _ _)
      · exact List.mem_cons_of_mem _ (List.mem_cons_of_mem _ h')
    · rw [if_neg h]
      rcases List.mem_cons.mp (ih b) with h' | h'
      · rw [h']
        exact List.mem_cons_self _ _
      · exact List.mem_cons_of_mem _ (List.mem_cons_of_mem _ h')

theorem idxminGo_lb (b : String × ℚ) (l : List (String × ℚ)) :
    ∀ y ∈ b :: l, (idxminGo b l).2 ≤ y.2 := by
  induction l generalizing b with
  | nil =>
    intro y hy
    rcases List.mem_cons.mp hy with rfl | hy
    · exact le_refl _
    · exact absurd hy (List.not_mem_nil _)
  | cons x xs ih =>
    intro y hy
    rw [idxminGo]
    by_cases h : x.2 < b.2
    · rw [if_pos h]
      rcases List.mem_cons.mp hy with rfl | hy2
      · exact le_trans (ih x x (List.mem_cons_self _ _)) (le_of_lt h)
      · exact ih x y hy2
    · rw [if_neg h]
      rcases List.mem_cons.mp hy with rfl | hy2
      · exact ih _ y (List.mem_cons_self _ _)
      · rcases List.mem_cons.mp hy2 with rfl | hy3
        · exact le_trans (ih b b (List.mem_cons_self _ _)) (le_of_not_lt h)
        · exact ih b y (List.mem_cons_of_mem _ hy3)

theorem idxminGo_split (b : String × ℚ) (l : List (String × ℚ)) :
    ∃ pre post, b :: l = pre ++ idxminGo b l :: post ∧
      ∀ y ∈ pre, (idxminGo b l).2 < y.2 := by
  induction l generalizing b with
  | nil => exact ⟨[], [], rfl, by simp⟩
  | cons x xs ih =>
    rw [idxminGo]
    by_cases h : x.2 < b.2
    · rw [if_pos h]
      obtain ⟨pre, post, hsplit, hlt⟩ := ih x
      refine ⟨b :: pre, post, by rw [List.cons_append, ← hsplit], ?_⟩
      intro y hy
      rcases List.mem_cons.mp hy with rfl | hy2
      · exact lt_of_le_of_lt (idxminGo_lb x xs x (List.mem_cons_self _ _)) h
      · exact hlt y hy2
    · rw [if_neg h]
      obtain ⟨pre, post, hsplit, hlt⟩ := ih b
      cases pre with
      | nil =>
        simp only [List.nil_append] at hsplit
        injection hsplit with h1 h2
        refine ⟨[], x :: xs, ?_, by simp⟩
        rw [← h1]
        rfl
      | cons p ps =>
        simp only [List.cons_append, List.cons.injEq] at hsplit
        obtain ⟨rfl, hxs⟩ := hsplit
        refine ⟨b :: x :: ps, post, ?_, ?_⟩
        · rw [List.cons_append, List.cons_append, ← hxs]
        · intro y hy
          have hb : (idxminGo b xs).2 < b.2 := hlt b (List.mem_cons_self _ _)
          rcases List.mem_cons.mp hy with rfl | hy2
          · exact hb
          · rcases List.mem_cons.mp hy2 with rfl | hy3
            · exact lt_of_lt_of_le hb (not_lt.mp h)
            · exact hlt y (List.mem_cons_of_mem _ hy3)

theorem Date.leB_refl (a : Date) : Date.leB a a = true := by
  simp [Date.leB]

theorem lexLe_refl (a : List Char) : lexLe a a = true := by
  induction a with
  | nil => rfl
  | cons x xs ih => simp [lexLe, ih]

theorem strLeB_refl (a : String) : strLeB a a = true := lexLe_refl a.data

theorem inRangeB_self (v : DateVal) (s : Date) :
    inRangeB v s s = decide (v = DateVal.dt s) := by
  cases v with
  | raw t => simp [inRangeB, DateVal.geB, DateVal.leB]
  | dt d =>
    simp only [inRangeB, DateVal.geB, DateVal.leB]
    by_cases h : d = s
    · subst h
      simp [Date.leB_refl]
    · have hne : ¬(Date.leB s d = true ∧ Date.leB d s = true) := by
        rintro ⟨h1, h2⟩
        exact h (Date.leB_antisymm h2 h1)
      rcases h1 : Date.leB s d with _ | _ <;>
        rcases h2 : Date.leB d s with _ | _ <;>
          simp_all [DateVal.dt.injEq]

theorem summarize_names (rows : List Record) :
    (summarize rows).map Prod.fst = groupKeys rows := by
  rw [summarize, List.map_map]
  exact List.map_id _

theorem filter_by_range_empty_of_gt (rows : List Record) {s e : Date}
    (h : Date.leB s e = false) : filter_by_range rows s e = [] := by
  rw [filter_by_range_eq_filter]
  rw [List.filter_eq_nil_iff]
  intro r _ hr
  cases hv : r.date with
  | raw t => rw [hv] at hr; simp [inRangeB, DateVal.geB] at hr
  | dt d =>
    rw [hv] at hr
    simp only [inRangeB, DateVal.geB, DateVal.leB, Bool.and_eq_true] at hr
    rw [Date.leB_trans hr.1 hr.2] at h
    exact absurd h (by simp)

theorem to_datetime_fix {v v2 : DateVal} (h : to_datetime v = some v2) :
    to_datetime v2 = some v2 := by
  cases v with
  | raw s =>
    rw [to_datetime] at h
    cases hp : parseDate s with
    | none => rw [hp] at h; exact absurd h (by simp)
    | some d =>
      rw [hp] at h
      rw [Option.map_some'] at h
      injection h with h
      rw [← h]
      rfl
  | dt d =>
    rw [to_datetime] at h
    injection h with h
    rw [← h]
    rfl

theorem normalizeDates_fields {rows rows2 : List Record}
    (h : normalizeDates rows = some rows2) :
    rows2.map Record.studentName = rows.map Record.studentName ∧
    rows2.map Record.status = rows.map Record.status := by
  induction rows generalizing rows2 with
  | nil =>
    rw [normalizeDates] at h
    injection h with h
    rw [← h]
    exact ⟨rfl, rfl⟩
  | cons r rs ih =>
    rw [normalizeDates] at h
    cases hv : to_datetime r.date with
    | none => rw [hv] at h; simp at h
    | some v =>
      cases hrest : normalizeDates rs with
      | none => rw [hv, hrest] at h; simp at h
      | some rest =>
        rw [hv, hrest] at h
        injection h with h
        rw [← h]
        obtain ⟨h1, h2⟩ := ih hrest
        simp [h1, h2]

theorem normalizeDates_fix {rows rows2 : List Record}
    (h : normalizeDates rows = some rows2) :
    normalizeDates rows2 = some rows2 := by
  induction rows generalizing rows2 with
  | nil =>
    rw [normalizeDates] at h
    injection h with h
    rw [← h]
    rfl
  | cons r rs ih =>
    rw [normalizeDates] at h
    cases hv : to_datetime r.date with
    | none => rw [hv] at h; simp at h
    | some v =>
      cases hrest : normalizeDates rs with
      | none => rw [hv, hrest] at h; simp at h
      | some rest =>
        rw [hv, hrest] at h
        injection h with h
        rw [← h, normalizeDates]
        have hfix : to_datetime v = some v := to_datetime_fix hv
        rw [hfix, ih hrest]

/-- C3: for every record set and every pair of dates `start` and `end`,
`filter_by_range` returns exactly the subsequence of records whose date
lies in the inclusive interval `[start, end]` (it equals the order-
preserving `filter` by the range predicate, is a sublist of the input,
and a record is selected iff it is in the input with `start ≤ date` and
`date ≤ end`); with `start = end` it returns exactly the records dated
that single day. -/
theorem C3_filter_by_range_inclusive_subsequence (rows : List Record) (s e : Date) :
    filter_by_range rows s e = rows.filter (fun r => inRangeB r.date s e) ∧
    (filter_by_range rows s e).Sublist rows ∧
    (∀ r, r ∈ filter_by_range rows s e ↔
      r ∈ rows ∧ DateVal.geB r.date s = true ∧ DateVal.leB r.date e = true) ∧
    filter_by_range rows s s = rows.filter (fun r => decide (r.date = DateVal.dt s)) := by
  refine ⟨filter_by_range_eq_filter rows s e, ?_, ?_, ?_⟩
  · rw [filter_by_range_eq_filter]
    exact List.filter_sublist rows
  · intro r
    rw [filter_by_range_eq_filter, List.mem_filter, inRangeB, Bool.and_eq_true]
  · rw [filter_by_range_eq_filter]
    exact List.filter_congr (fun r _ => inRangeB_self r.date s)

/-- C8: `filter_by_range` is idempotent: filtering an already-filtered
result again with the same `start` and `end` yields the same records. -/
theorem C8_filter_by_range_idempotent (rows : List Record) (s e : Date) :
    filter_by_range (filter_by_range rows s e) s e = filter_by_range rows s e := by
  rw [filter_by_range_eq_filter rows s e, filter_by_range_eq_filter,
    List.filter_filter]
  exact List.filter_congr (fun r _ => by
    cases h : inRangeB r.date s e <;> simp [h])

/-- C1: every student appearing in the record set is assigned by
`summarize` the percentage `100 * (Present count) / (total count)` of
their records in the active set (and no other value), where a record
counts as present exactly when its `Status` is the string `"Present"`
(case-sensitive). -/
theorem C1_summarize_assigns_ratio (rows : List Record) (r : Record)
    (h : r ∈ rows) :
    (r.studentName,
        100 * (presentCount rows r.studentName : ℚ)
          / (totalCount rows r.studentName : ℚ)) ∈ summarize rows ∧
    ∀ q, (r.studentName, q) ∈ summarize rows →
      q = 100 * (presentCount rows r.studentName : ℚ)
            / (totalCount rows r.studentName : ℚ) := by
  have hpct : percentage rows r.studentName
      = 100 * (presentCount rows r.studentName : ℚ)
          / (totalCount rows r.studentName : ℚ) := by
    rw [percentage, div_eq_mul_inv, div_eq_mul_inv]
    ring
  have hmem : r.studentName ∈ groupKeys rows :=
    mem_groupKeys.mpr (List.mem_map.mpr ⟨r, h, rfl⟩)
  constructor
  · rw [← hpct, summarize]
    exact List.mem_map.mpr ⟨r.studentName, hmem, rfl⟩
  · intro q hq
    obtain ⟨_, h2⟩ := mem_summarize_snd hq
    rw [← hpct]
    exact h2

/-- Witness for C1 at the worked example of spec section 8. -/
theorem C1_summarize_assigns_ratio_witness :
    (⟨"Alice", .dt ⟨2024, 1, 1⟩, "Present"⟩ : Record) ∈ exampleRows ∧
    ((("Alice" : String),
        100 * (presentCount exampleRows "Alice" : ℚ)
          / (totalCount exampleRows "Alice" : ℚ)) ∈ summarize exampleRows ∧
    ∀ q, (("Alice" : String), q) ∈ summarize exampleRows →
      q = 100 * (presentCount exampleRows "Alice" : ℚ)
            / (totalCount exampleRows "Alice" : ℚ)) :=
  ⟨by decide,
   C1_summarize_assigns_ratio exampleRows ⟨"Alice", .dt ⟨2024, 1, 1⟩, "Present"⟩
     (by decide)⟩

/-- C2: for a non-empty record set, every percentage in the summary lies
in `[0, 100]`, and the overall attendance is the arithmetic mean of the
per-student percentages — summed over the distinct students and divided
by the number of distinct students, so each student weighs equally
regardless of how many records they have. -/
theorem C2_percentages_bounded_overall_mean (rows : List Record)
    (h : rows ≠ []) :
    (∀ x ∈ summarize rows, 0 ≤ x.2 ∧ x.2 ≤ 100) ∧
    overall_attendance rows
      = ((groupKeys rows).map (fun n => percentage rows n)).sum
          / ((groupKeys rows).length : ℚ) := by
  constructor
  · intro x hx
    obtain ⟨h1, h2⟩ := mem_summarize_snd hx
    rw [h2]
    exact ⟨percentage_nonneg rows x.1, percentage_le_hundred h1⟩
  · rw [overall_attendance, seriesMean, summarize, List.map_map,
      List.length_map]
    rfl

/-- Witness for C2 at the worked example of spec section 8. -/
theorem C2_percentages_bounded_overall_mean_witness :
    exampleRows ≠ [] ∧
    ((∀ x ∈ summarize exampleRows, 0 ≤ x.2 ∧ x.2 ≤ 100) ∧
    overall_attendance exampleRows
      = ((groupKeys exampleRows).map (fun n => percentage exampleRows n)).sum
          / ((groupKeys exampleRows).length : ℚ)) :=
  ⟨by decide, C2_percentages_bounded_overall_mean exampleRows (by decide)⟩

/-- C4: on a non-empty record set, `idxmax` picks a student whose
percentage is greatest and `idxmin` one whose percentage is least, and
each tie is broken in favour of the first entry encountered in the
summary's iteration order: every entry strictly before the chosen one
has a strictly smaller (resp. larger) percentage. -/
theorem C4_most_least_regular_optimal (rows : List Record) (h : rows ≠ []) :
    ∃ m pm l pl,
      idxmax (summarize rows) = some m ∧
      idxmin (summarize rows) = some l ∧
      (m, pm) ∈ summarize rows ∧
      (l, pl) ∈ summarize rows ∧
      (∀ x ∈ summarize rows, x.2 ≤ pm) ∧
      (∀ x ∈ summarize rows, pl ≤ x.2) ∧
      (∃ pre post, summarize rows = pre ++ (m, pm) :: post ∧
        ∀ y ∈ pre, y.2 < pm) ∧
      (∃ pre post, summarize rows = pre ++ (l, pl) :: post ∧
        ∀ y ∈ pre, pl < y.2) := by
  obtain ⟨p, rest, hS⟩ := List.exists_cons_of_ne_nil (summarize_ne_nil h)
  refine ⟨(idxmaxGo p rest).1, (idxmaxGo p rest).2,
    (idxminGo p rest).1, (idxminGo p rest).2, ?_, ?_, ?_, ?_, ?_, ?_, ?_, ?_⟩
  · rw [hS]; rfl
  · rw [hS]; rfl
  · rw [hS, Prod.mk.eta]
    exact idxmaxGo_mem p rest
  · rw [hS, Prod.mk.eta]
    exact idxminGo_mem p rest
  · rw [hS]
    exact idxmaxGo_ub p rest
  · rw [hS]
    exact idxminGo_lb p rest
  · rw [hS]
    simp only [Prod.mk.eta]
    exact idxmaxGo_split p rest
  · rw [hS]
    simp only [Prod.mk.eta]
    exact idxminGo_split p rest

/-- Witness for C4 at the worked example of spec section 8. -/
theorem C4_most_least_regular_optimal_witness :
    exampleRows ≠ [] ∧
    (∃ m pm l pl,
      idxmax (summarize exampleRows) = some m ∧
      idxmin (summarize exampleRows) = some l ∧
      (m, pm) ∈ summarize exampleRows ∧
      (l, pl) ∈ summarize exampleRows ∧
      (∀ x ∈ summarize exampleRows, x.2 ≤ pm) ∧
      (∀ x ∈ summarize exampleRows, pl ≤ x.2) ∧
      (∃ pre post, summarize exampleRows = pre ++ (m, pm) :: post ∧
        ∀ y ∈ pre, y.2 < pm) ∧
      (∃ pre post, summarize exampleRows = pre ++ (l, pl) :: post ∧
        ∀ y ∈ pre, pl < y.2)) :=
  ⟨by decide, C4_most_least_regular_optimal exampleRows (by decide)⟩

/-- C9 (implicit): the summary iterates students in strictly ascending
lexicographic (code-point) order of name, its value is independent of the
records' order of appearance, and therefore a tie for the maximum (resp.
minimum) percentage is resolved to the lexicographically smallest tied
name: the chosen name is `≤` every tied name in Python string order. -/
theorem C9_sorted_keys_lex_tiebreak (rows : List Record) (h : rows ≠ []) :
    ((summarize rows).map Prod.fst).Pairwise
      (fun a b => strLeB a b = true ∧ a ≠ b) ∧
    (∀ rows2, rows.Perm rows2 → summarize rows2 = summarize rows) ∧
    (∃ m pm, idxmax (summarize rows) = some m ∧ (m, pm) ∈ summarize rows ∧
      (∀ x ∈ summarize rows, x.2 ≤ pm) ∧
      (∀ x ∈ summarize rows, x.2 = pm → strLeB m x.1 = true)) ∧
    (∃ l pl, idxmin (summarize rows) = some l ∧ (l, pl) ∈ summarize rows ∧
      (∀ x ∈ summarize rows, pl ≤ x.2) ∧
      (∀ x ∈ summarize rows, x.2 = pl → strLeB l x.1 = true)) := by
  have hpair : ((summarize rows).map Prod.fst).Pairwise
      (fun a b => strLeB a b = true) := by
    rw [summarize_names]
    exact groupKeys_pairwise rows
  refine ⟨?_, ?_, ?_, ?_⟩
  · rw [summarize_names]
    exact (groupKeys_pairwise rows).and (groupKeys_nodup rows)
  · intro rows2 hperm
    exact (summarize_eq_of_perm hperm).symm
  · obtain ⟨p, rest, hS⟩ := List.exists_cons_of_ne_nil (summarize_ne_nil h)
    refine ⟨(idxmaxGo p rest).1, (idxmaxGo p rest).2, by rw [hS]; rfl,
      by rw [hS, Prod.mk.eta]; exact idxmaxGo_mem p rest,
      by rw [hS]; exact idxmaxGo_ub p rest, ?_⟩
    obtain ⟨pre, post, hdec, hlt⟩ := idxmaxGo_split p rest
    have hdec2 : summarize rows = pre ++ idxmaxGo p rest :: post := by
      rw [hS, hdec]
    intro x hx hxv
    rw [hdec2, List.mem_append, List.mem_cons] at hx
    rcases hx with hx | hx | hx
    · exact absurd (hxv ▸ hlt x hx) (lt_irrefl _)
    · rw [hx]
      exact strLeB_refl _
    · rw [hdec2, List.map_append, List.map_cons] at hpair
      obtain ⟨_, hws, _⟩ := List.pairwise_append.mp hpair
      exact (List.pairwise_cons.mp hws).1 x.1 (List.mem_map_of_mem Prod.fst hx)
  · obtain ⟨p, rest, hS⟩ := List.exists_cons_of_ne_nil (summarize_ne_nil h)
    refine ⟨(idxminGo p rest).1, (idxminGo p rest).2, by rw [hS]; rfl,
      by rw [hS, Prod.mk.eta]; exact idxminGo_mem p rest,
      by rw [hS]; exact idxminGo_lb p rest, ?_⟩
    obtain ⟨pre, post, hdec, hlt⟩ := idxminGo_split p rest
    have hdec2 : summarize rows = pre ++ idxminGo p rest :: post := by
      rw [hS, hdec]
    intro x hx hxv
    rw [hdec2, List.mem_append, List.mem_cons] at hx
    rcases hx with hx | hx | hx
    · exact absurd (hxv ▸ hlt x hx) (lt_irrefl _)
    · rw [hx]
      exact strLeB_refl _
    · rw [hdec2, List.map_append, List.map_cons] at hpair
      obtain ⟨_, hws, _⟩ := List.pairwise_append.mp hpair
      exact (List.pairwise_cons.mp hws).1 x.1 (List.mem_map_of_mem Prod.fst hx)

/-- Witness for C9: two students tie at 100 percent; the records list Bob
before Amy, yet the summary is sorted and the tie goes to Amy. -/
theorem C9_sorted_keys_lex_tiebreak_witness :
    ([⟨"Bob", .dt ⟨2024, 1, 1⟩, "Present"⟩,
      ⟨"Amy", .dt ⟨2024, 1, 1⟩, "Present"⟩] : List Record) ≠ [] ∧
    (((summarize [⟨"Bob", .dt ⟨2024, 1, 1⟩, "Present"⟩,
        ⟨"Amy", .dt ⟨2024, 1, 1⟩, "Present"⟩]).map Prod.fst).Pairwise
      (fun a b => strLeB a b = true ∧ a ≠ b) ∧
    (∀ rows2, ([⟨"Bob", .dt ⟨2024, 1, 1⟩, "Present"⟩,
        ⟨"Amy", .dt ⟨2024, 1, 1⟩, "Present"⟩] : List Record).Perm rows2 →
      summarize rows2 = summarize [⟨"Bob", .dt ⟨2024, 1, 1⟩, "Present"⟩,
        ⟨"Amy", .dt ⟨2024, 1, 1⟩, "Present"⟩]) ∧
    (∃ m pm, idxmax (summarize [⟨"Bob", .dt ⟨2024, 1, 1⟩, "Present"⟩,
        ⟨"Amy", .dt ⟨2024, 1, 1⟩, "Present"⟩]) = some m ∧
      (m, pm) ∈ summarize [⟨"Bob", .dt ⟨2024, 1, 1⟩, "Present"⟩,
        ⟨"Amy", .dt ⟨2024, 1, 1⟩, "Present"⟩] ∧
      (∀ x ∈ summarize [⟨"Bob", .dt ⟨2024, 1, 1⟩, "Present"⟩,
        ⟨"Amy", .dt ⟨2024, 1, 1⟩, "Present"⟩], x.2 ≤ pm) ∧
      (∀ x ∈ summarize [⟨"Bob", .dt ⟨2024, 1, 1⟩, "Present"⟩,
        ⟨"Amy", .dt ⟨2024, 1, 1⟩, "Present"⟩], x.2 = pm →
          strLeB m x.1 = true)) ∧
    (∃ l pl, idxmin (summarize [⟨"Bob", .dt ⟨2024, 1, 1⟩, "Present"⟩,
        ⟨"Amy", .dt ⟨2024, 1, 1⟩, "Present"⟩]) = some l ∧
      (l, pl) ∈ summarize [⟨"Bob", .dt ⟨2024, 1, 1⟩, "Present"⟩,
        ⟨"Amy", .dt ⟨2024, 1, 1⟩, "Present"⟩] ∧
      (∀ x ∈ summarize [⟨"Bob", .dt ⟨2024, 1, 1⟩, "Present"⟩,
        ⟨"Amy", .dt ⟨2024, 1, 1⟩, "Present"⟩], pl ≤ x.2) ∧
      (∀ x ∈ summarize [⟨"Bob", .dt ⟨2024, 1, 1⟩, "Present"⟩,
        ⟨"Amy", .dt ⟨2024, 1, 1⟩, "Present"⟩], x.2 = pl →
          strLeB l x.1 = true))) :=
  ⟨by decide, C9_sorted_keys_lex_tiebreak
    [⟨"Bob", .dt ⟨2024, 1, 1⟩, "Present"⟩,
     ⟨"Amy", .dt ⟨2024, 1, 1⟩, "Present"⟩] (by decide)⟩

/-- C5: analyzing a frame that has the required columns but no rows fails
with the empty-dataset error (the `ValueError` that `idxmax` raises on
the empty summary, surfaced as the analysis-failure dialog): the load
itself succeeds and stores the frame, and no division by zero takes
place because the empty frame produces no groups at all. -/
theorem C5_empty_dataset_error (st : AppState) (df : DataFrame)
    (hcols : hasRequiredColumns df.columns = true) (hrows : df.rows = []) :
    load_and_analyze st (some df)
      = (⟨some df⟩, .loaded .emptyDatasetError) := by
  simp only [load_and_analyze, analyze_attendance, hrows, hcols]
  rfl

/-- Witness for C5: a header-only CSV (required columns, zero rows). -/
theorem C5_empty_dataset_error_witness :
    hasRequiredColumns (["Student Name", "Date", "Status"] : List String)
        = true ∧
    (⟨["Student Name", "Date", "Status"], []⟩ : DataFrame).rows = [] ∧
    load_and_analyze ⟨none⟩ (some ⟨["Student Name", "Date", "Status"], []⟩)
      = (⟨some ⟨["Student Name", "Date", "Status"], []⟩⟩,
          .loaded .emptyDatasetError) :=
  ⟨by decide, rfl,
   C5_empty_dataset_error ⟨none⟩ ⟨["Student Name", "Date", "Status"], []⟩
     (by decide) rfl⟩

/-- C6 counterexample: with a dataset already loaded, uploading a CSV
that lacks the `Status` column reports a validation error as claimed,
but the stored dataset HAS been replaced by the invalid frame — line 50
(`self.df = pd.read_csv(...)`) runs before the column check of line 61,
so the claim's "previously active dataset is not replaced" is false. -/
theorem C6_dataset_replaced_counterexample :
    (load_and_analyze ⟨some storedDF⟩ (some badDF)).2
        = .loaded .validationError ∧
    (load_and_analyze ⟨some storedDF⟩ (some badDF)).1.df = some badDF ∧
    some badDF ≠ some storedDF := by
  refine ⟨by decide, rfl, by decide⟩

/-- C6 as amended: a CSV missing a required column is reported as a
validation error and the analysis is aborted, but the stored dataset IS
replaced by the invalid frame (assignment precedes validation); only
when reading the file itself fails is the previous dataset kept. -/
theorem C6_amended_replaced_before_validation (st : AppState)
    (df : DataFrame) (hbad : hasRequiredColumns df.columns = false) :
    load_and_analyze st (some df) = (⟨some df⟩, .loaded .validationError) ∧
    load_and_analyze st none = (st, .readError) := by
  constructor
  · simp only [load_and_analyze, analyze_attendance, hbad]
    rfl
  · rfl

/-- Witness for the amended C6. -/
theorem C6_amended_replaced_before_validation_witness :
    hasRequiredColumns badDF.columns = false ∧
    (load_and_analyze ⟨some storedDF⟩ (some badDF)
        = (⟨some badDF⟩, .loaded .validationError) ∧
    load_and_analyze ⟨some storedDF⟩ none = (⟨some storedDF⟩, .readError)) :=
  ⟨by decide,
   C6_amended_replaced_before_validation ⟨some storedDF⟩ badDF (by decide)⟩

/-- C7 counterexample: running the date-filtered analysis does NOT leave
the stored dataset unchanged — line 108 writes the parsed `Date` column
back into `self.df`, so the stored record's `Date` field changes from
the raw text `"2024-01-01"` to the parsed date. -/
theorem C7_store_mutated_counterexample :
    (analyze_with_date_filter ⟨some storedDF⟩ "2024-01-01" "2024-01-02").1
        ≠ ⟨some storedDF⟩ ∧
    (analyze_with_date_filter ⟨some storedDF⟩ "2024-01-01" "2024-01-02").1.df
      = some ⟨["Student Name", "Date", "Status"],
          [⟨"Alice", .dt ⟨2024, 1, 1⟩, "Present"⟩]⟩ := by
  refine ⟨by decide, by decide⟩

/-- C7 as amended: `summarize` and `filter_by_range` are pure functions
(their Lean embeddings are functions of their inputs), but the
date-filtered analysis overwrites the stored frame's `Date` column in
place with its parsed values; the store keeps its columns, row order,
`Student Name` and `Status` fields, and the converted store is a fixed
point of the conversion, so a second run leaves it unchanged. -/
theorem C7_amended_date_column_normalized (st : AppState) (df : DataFrame)
    (startText endText : String) (s e : Date) (rows2 : List Record)
    (hdf : st.df = some df) (hs : startText ≠ "") (he : endText ≠ "")
    (hps : parseDate startText = some s) (hpe : parseDate endText = some e)
    (hnorm : normalizeDates df.rows = some rows2) :
    (analyze_with_date_filter st startText endText).1
        = ⟨some ⟨df.columns, rows2⟩⟩ ∧
    rows2.map Record.studentName = df.rows.map Record.studentName ∧
    rows2.map Record.status = df.rows.map Record.status ∧
    normalizeDates rows2 = some rows2 := by
  refine ⟨?_, (normalizeDates_fields hnorm).1,
    (normalizeDates_fields hnorm).2, normalizeDates_fix hnorm⟩
  simp only [analyze_with_date_filter, hdf, hps, hpe, hnorm]
  rw [if_neg (not_or.mpr ⟨hs, he⟩)]
  by_cases hf : (filter_by_range rows2 s e).isEmpty = true <;> simp [hf]

/-- Witness for the amended C7. -/
theorem C7_amended_date_column_normalized_witness :
    (⟨some storedDF⟩ : AppState).df = some storedDF ∧
    ("2024-01-01" : String) ≠ "" ∧ ("2024-01-02" : String) ≠ "" ∧
    parseDate "2024-01-01" = some ⟨2024, 1, 1⟩ ∧
    parseDate "2024-01-02" = some ⟨2024, 1, 2⟩ ∧
    normalizeDates storedDF.rows
        = some [⟨"Alice", .dt ⟨2024, 1, 1⟩, "Present"⟩] ∧
    ((analyze_with_date_filter ⟨some storedDF⟩ "2024-01-01" "2024-01-02").1
        = ⟨some ⟨storedDF.columns,
            [⟨"Alice", .dt ⟨2024, 1, 1⟩, "Present"⟩]⟩⟩ ∧
    ([⟨"Alice", .dt ⟨2024, 1, 1⟩, "Present"⟩] : List Record).map
        Record.studentName = storedDF.rows.map Record.studentName ∧
    ([⟨"Alice", .dt ⟨2024, 1, 1⟩, "Present"⟩] : List Record).map
        Record.status = storedDF.rows.map Record.status ∧
    normalizeDates [⟨"Alice", .dt ⟨2024, 1, 1⟩, "Present"⟩]
        = some [⟨"Alice", .dt ⟨2024, 1, 1⟩, "Present"⟩]) :=
  ⟨rfl, by decide, by decide, by decide, by decide, by decide,
   C7_amended_date_column_normalized ⟨some storedDF⟩ storedDF
     "2024-01-01" "2024-01-02" ⟨2024, 1, 1⟩ ⟨2024, 1, 2⟩
     [⟨"Alice", .dt ⟨2024, 1, 1⟩, "Present"⟩]
     rfl (by decide) (by decide) (by decide) (by decide) (by decide)⟩

/-- C10 (implicit): with a dataset loaded whose dates all convert, and
well-formed start and end dates with start strictly after end, the
filter selects no records, the operation reports the informational
no-records-found outcome, and the aggregator is never invoked. -/
theorem C10_start_after_end_no_records (st : AppState) (df : DataFrame)
    (startText endText : String) (s e : Date) (rows2 : List Record)
    (hdf : st.df = some df) (hs : startText ≠ "") (he : endText ≠ "")
    (hps : parseDate startText = some s) (hpe : parseDate endText = some e)
    (hnorm : normalizeDates df.rows = some rows2)
    (hgt : Date.leB s e = false) :
    (analyze_with_date_filter st startText endText).2
        = FilterOutcome.noRecords ∧
    ∀ res, (analyze_with_date_filter st startText endText).2
      ≠ FilterOutcome.analyzed res := by
  have hempty : filter_by_range rows2 s e = [] :=
    filter_by_range_empty_of_gt rows2 hgt
  have hmain : (analyze_with_date_filter st startText endText).2
      = FilterOutcome.noRecords := by
    simp only [analyze_with_date_filter, hdf, hps, hpe, hnorm]
    rw [if_neg (not_or.mpr ⟨hs, he⟩)]
    simp [hempty]
  refine ⟨hmain, fun res => by rw [hmain]; simp⟩

/-- Witness for C10: start 2024-01-02 strictly after end 2024-01-01. -/
theorem C10_start_after_end_no_records_witness :
    (⟨some storedDF⟩ : AppState).df = some storedDF ∧
    ("2024-01-02" : String) ≠ "" ∧ ("2024-01-01" : String) ≠ "" ∧
    parseDate "2024-01-02" = some ⟨2024, 1, 2⟩ ∧
    parseDate "2024-01-01" = some ⟨2024, 1, 1⟩ ∧
    normalizeDates storedDF.rows
        = some [⟨"Alice", .dt ⟨2024, 1, 1⟩, "Present"⟩] ∧
    Date.leB ⟨2024, 1, 2⟩ ⟨2024, 1, 1⟩ = false ∧
    ((analyze_with_date_filter ⟨some storedDF⟩ "2024-01-02" "2024-01-01").2
        = FilterOutcome.noRecords ∧
    ∀ res, (analyze_with_date_filter ⟨some storedDF⟩
        "2024-01-02" "2024-01-01").2 ≠ FilterOutcome.analyzed res) :=
  ⟨rfl, by decide, by decide, by decide, by decide, by decide, by decide,
   C10_start_after_end_no_records ⟨some storedDF⟩ storedDF
     "2024-01-02" "2024-01-01" ⟨2024, 1, 2⟩ ⟨2024, 1, 1⟩
     [⟨"Alice", .dt ⟨2024, 1, 1⟩, "Present"⟩]
     rfl (by decide) (by decide) (by decide) (by decide) (by decide)
     (by decide)⟩
